/-
Verification of the browser JWT manager against its specification.

The development shallowly embeds the TypeScript sources:
  * the token manager (storage-backed `token` getter and setter, `data`,
    the claim accessor getters, and the private `#isValidTime` check),
  * the earlier manager variant (whose expiry check used a strict
    comparison and whose setter logged instead of raising),
  * the test fixture `createMockJwt` (standard base64 of JSON, with the
    padding characters stripped),
  * the token decoding routine, modelled from the specification because
    only its test file ships with the repository.

Strings that flow through JSON encoding are modelled at the byte level:
a JavaScript string is represented by its UTF-8 byte sequence
(`List Nat`, each entry below 256).  All JSON syntax characters are
ASCII, and UTF-8 is injective, so serialization and parsing commute
with this representation.  JSON numbers are modelled as integers
(claim timestamps are integral seconds; floating point is out of
scope).  Token strings themselves are `List Char`.
-/
import Mathlib

namespace JwtSpec

/-- Byte sequences stand for JavaScript strings (their UTF-8 bytes). -/
abbrev Bytes := List Nat

/-- ASCII bytes of a Lean string literal, used for claim names. -/
def strBytes (s : String) : Bytes := s.data.map Char.toNat

mutual

/-- JSON value, as produced by parsing a token segment.  Numbers are
integers and strings are byte sequences (see the header comment). -/
inductive Json where
  | null : Json
  | bool : Bool → Json
  | num : Int → Json
  | str : Bytes → Json
  | arr : JsonList → Json
  | obj : JsonObj → Json

/-- Elements of a JSON array. -/
inductive JsonList where
  | nil : JsonList
  | cons : Json → JsonList → JsonList

/-- Members of a JSON object, in insertion order. -/
inductive JsonObj where
  | nil : JsonObj
  | cons : Bytes → Json → JsonObj → JsonObj

end

/-- First binding of a key in an object, the way property lookup on a
parsed object behaves. -/
def JsonObj.find : JsonObj → Bytes → Option Json
  | .nil, _ => none
  | .cons k v t, key => if k = key then some v else t.find key

/-- Property access `decoded.name` on a decoded value: a lookup when the
value is an object, otherwise absent. -/
def jsonField (j : Json) (key : Bytes) : Option Json :=
  match j with
  | .obj o => o.find key
  | _ => none

/-- Truthiness of a decoded value under JavaScript coercion rules:
`false`, `0`, the empty string, and `null` are falsy (`undefined`, the
absent case, is handled by the callers via `Option`). -/
def jsTruthy : Json → Bool
  | .null => false
  | .bool b => b
  | .num n => n ≠ 0
  | .str s => s ≠ []
  | .arr _ => true
  | .obj _ => true

/-- Lowercase hexadecimal digit byte, as emitted by `JSON.stringify`
for control-character escapes. -/
def hexDigitByte (n : Nat) : Nat := if n < 10 then 48 + n else 87 + n

/-- Escape of one string byte under `JSON.stringify`: quote and
backslash get two-byte escapes, the named control characters get their
short escapes, other control bytes get a `\u00XX` escape, and every
other byte is emitted as itself. -/
def escapeByte (b : Nat) : Bytes :=
  if b = 34 then [92, 34]
  else if b = 92 then [92, 92]
  else if b = 8 then [92, 98]
  else if b = 9 then [92, 116]
  else if b = 10 then [92, 110]
  else if b = 12 then [92, 102]
  else if b = 13 then [92, 114]
  else if b < 32 then [92, 117, 48, 48, hexDigitByte (b / 16), hexDigitByte (b % 16)]
  else [b]

/-- Escaped body of a JSON string literal. -/
def escapeBytes (s : Bytes) : Bytes := s.flatMap escapeByte

/-- Serialized JSON string literal: quote, escaped body, quote. -/
def serializeString (s : Bytes) : Bytes := 34 :: escapeBytes s ++ [34]

/-- Decimal digit bytes of a natural number, most significant first.
The first argument is fuel so that the definition is structural and
reduces in the kernel; `natDigits` supplies enough. -/
def natDigitsAux : Nat → Nat → Bytes
  | 0, n => [48 + n % 10]
  | fuel + 1, n => if n < 10 then [48 + n] else natDigitsAux fuel (n / 10) ++ [48 + n % 10]

/-- Decimal digit bytes of a natural number. -/
def natDigits (n : Nat) : Bytes := natDigitsAux n n

/-- Serialized integer, as `JSON.stringify` renders integral numbers. -/
def intBytes (n : Int) : Bytes :=
  if n < 0 then 45 :: natDigits n.natAbs else natDigits n.toNat

mutual

/-- Serialization of a JSON value, mirroring `JSON.stringify` (which
emits no whitespace). -/
def serializeJson : Json → Bytes
  | .null => [110, 117, 108, 108]
  | .bool true => [116, 114, 117, 101]
  | .bool false => [102, 97, 108, 115, 101]
  | .num n => intBytes n
  | .str s => serializeString s
  | .arr a => 91 :: serializeElems a ++ [93]
  | .obj o => 123 :: serializeMembers o ++ [125]

/-- Comma-separated serialization of array elements. -/
def serializeElems : JsonList → Bytes
  | .nil => []
  | .cons h .nil => serializeJson h
  | .cons h (.cons h2 t) => serializeJson h ++ 44 :: serializeElems (.cons h2 t)

/-- Comma-separated serialization of object members. -/
def serializeMembers : JsonObj → Bytes
  | .nil => []
  | .cons k v .nil => serializeString k ++ 58 :: serializeJson v
  | .cons k v (.cons k2 v2 t) =>
      serializeString k ++ 58 :: serializeJson v ++ 44 :: serializeMembers (.cons k2 v2 t)

end

mutual

/-- Size of a value, used to bound the parser fuel. -/
def Json.size : Json → Nat
  | .null => 1
  | .bool _ => 1
  | .num _ => 1
  | .str _ => 1
  | .arr a => Json.sizeL a + 1
  | .obj o => Json.sizeO o + 1

/-- Size of an element list (mutual with the value size). -/
def Json.sizeL : JsonList → Nat
  | .nil => 0
  | .cons h t => Json.size h + Json.sizeL t + 1

/-- Size of a member list (mutual with the value size). -/
def Json.sizeO : JsonObj → Nat
  | .nil => 0
  | .cons _ v t => Json.size v + Json.sizeO t + 1

end

/-- Value of a hexadecimal digit byte, both letter cases accepted as
`JSON.parse` does. -/
def hexVal (b : Nat) : Option Nat :=
  if 48 ≤ b ∧ b ≤ 57 then some (b - 48)
  else if 97 ≤ b ∧ b ≤ 102 then some (b - 87)
  else if 65 ≤ b ∧ b ≤ 70 then some (b - 55)
  else none

/-- Byte denoted by a one-letter escape sequence, or none when the
letter is not a recognized escape. -/
def escShort (e : Nat) : Option Nat :=
  if e = 34 then some 34
  else if e = 92 then some 92
  else if e = 47 then some 47
  else if e = 98 then some 8
  else if e = 116 then some 9
  else if e = 110 then some 10
  else if e = 102 then some 12
  else if e = 114 then some 13
  else none

/-- Body of a JSON string literal after the opening quote: bytes up to
the closing quote, with escapes decoded.  Unicode escapes are accepted
for ASCII code points, which covers everything the serializer emits. -/
def parseStringBody : Bytes → Option (Bytes × Bytes)
  | [] => none
  | b :: rest =>
    if b = 34 then some ([], rest)
    else if b = 92 then
      match rest with
      | [] => none
      | 117 :: h1 :: h2 :: h3 :: h4 :: r2 =>
        match hexVal h1, hexVal h2, hexVal h3, hexVal h4 with
        | some a, some b2, some c, some d =>
          let v := ((a * 16 + b2) * 16 + c) * 16 + d
          if v < 128 then
            match parseStringBody r2 with
            | some (s, r3) => some (v :: s, r3)
            | none => none
          else none
        | _, _, _, _ => none
      | e :: r =>
        match escShort e with
        | some c =>
          match parseStringBody r with
          | some (s, r2) => some (c :: s, r2)
          | none => none
        | none => none
    else
      match parseStringBody rest with
      | some (s, r2) => some (b :: s, r2)
      | none => none

/-- Test for a decimal digit byte. -/
def isDigitByte (b : Nat) : Bool := 48 ≤ b ∧ b ≤ 57

/-- Longest digit run at the head of the input, and the rest. -/
def takeDigits : Bytes → Bytes × Bytes
  | [] => ([], [])
  | b :: r =>
    if isDigitByte b then
      let (ds, rest) := takeDigits r
      (b :: ds, rest)
    else ([], b :: r)

/-- Numeric value of a digit-byte run. -/
def digitsToNat (ds : Bytes) : Nat := ds.foldl (fun acc b => acc * 10 + (b - 48)) 0

/-- Integer literal at the head of the input: optional minus sign, then
a nonempty digit run. -/
def parseIntBytes : Bytes → Option (Int × Bytes)
  | [] => none
  | b :: r =>
    if b = 45 then
      match takeDigits r with
      | ([], _) => none
      | (ds, rest) => some (-(digitsToNat ds : Int), rest)
    else
      match takeDigits (b :: r) with
      | ([], _) => none
      | (ds, rest) => some ((digitsToNat ds : Int), rest)

/-- Fixed byte pattern at the head of the input. -/
def expectBytes : Bytes → Bytes → Option Bytes
  | [], bs => some bs
  | _ :: _, [] => none
  | p :: ps, b :: bs => if b = p then expectBytes ps bs else none

mutual

/-- Recursive-descent JSON value parse.  The fuel argument makes the
mutual recursion structural; `jsonParse` supplies enough fuel for any
input.  The serializer emits no whitespace, so none is skipped. -/
def parseValue : Nat → Bytes → Option (Json × Bytes)
  | 0, _ => none
  | fuel + 1, bs =>
    match bs with
    | [] => none
    | b :: r =>
      if b = 110 then
        match expectBytes [117, 108, 108] r with
        | some rest => some (.null, rest)
        | none => none
      else if b = 116 then
        match expectBytes [114, 117, 101] r with
        | some rest => some (.bool true, rest)
        | none => none
      else if b = 102 then
        match expectBytes [97, 108, 115, 101] r with
        | some rest => some (.bool false, rest)
        | none => none
      else if b = 34 then
        match parseStringBody r with
        | some (s, rest) => some (.str s, rest)
        | none => none
      else if b = 91 then
        match r with
        | [] => none
        | c :: r2 =>
          if c = 93 then some (.arr .nil, r2)
          else
            match parseElems fuel (c :: r2) with
            | some (l, rest) => some (.arr l, rest)
            | none => none
      else if b = 123 then
        match r with
        | [] => none
        | c :: r2 =>
          if c = 125 then some (.obj .nil, r2)
          else
            match parseMembers fuel (c :: r2) with
            | some (o, rest) => some (.obj o, rest)
            | none => none
      else if b = 45 ∨ isDigitByte b then
        match parseIntBytes (b :: r) with
        | some (n, rest) => some (.num n, rest)
        | none => none
      else none

/-- Nonempty array tail: elements separated by commas, closed by a
bracket. -/
def parseElems : Nat → Bytes → Option (JsonList × Bytes)
  | 0, _ => none
  | fuel + 1, bs =>
    match parseValue fuel bs with
    | none => none
    | some (v, r) =>
      match r with
      | [] => none
      | c :: r2 =>
        if c = 44 then
          match parseElems fuel r2 with
          | some (l, rest) => some (.cons v l, rest)
          | none => none
        else if c = 93 then some (.cons v .nil, r2)
        else none

/-- Nonempty object tail: quoted key, colon, value, then a comma and
more members or the closing brace. -/
def parseMembers : Nat → Bytes → Option (JsonObj × Bytes)
  | 0, _ => none
  | fuel + 1, bs =>
    match bs with
    | [] => none
    | b :: r =>
      if b = 34 then
        match parseStringBody r with
        | none => none
        | some (k, r1) =>
          match r1 with
          | [] => none
          | c :: r2 =>
            if c = 58 then
              match parseValue fuel r2 with
              | none => none
              | some (v, r3) =>
                match r3 with
                | [] => none
                | c2 :: r4 =>
                  if c2 = 44 then
                    match parseMembers fuel r4 with
                    | some (o, rest) => some (.cons k v o, rest)
                    | none => none
                  else if c2 = 125 then some (.cons k v .nil, r4)
                  else none
            else none
      else none

end

/-- Parse of a whole JSON text: one value consuming the entire input,
as `JSON.parse` requires. -/
def jsonParse (bs : Bytes) : Option Json :=
  match parseValue (bs.length + 1) bs with
  | some (v, []) => some v
  | _ => none

/-- Input that does not begin with a decimal digit byte, so a digit run
ending right before it is parsed back whole. -/
def notDigitStart : Bytes → Bool
  | [] => true
  | b :: _ => !isDigitByte b

/-- Standard base64 alphabet: index to character. -/
def b64Char (i : Nat) : Char :=
  if i < 26 then Char.ofNat (65 + i)
  else if i < 52 then Char.ofNat (97 + (i - 26))
  else if i < 62 then Char.ofNat (48 + (i - 52))
  else if i = 62 then '+'
  else '/'

/-- Standard base64 alphabet: character back to index. -/
def b64Index (c : Char) : Option Nat :=
  if 65 ≤ c.toNat ∧ c.toNat ≤ 90 then some (c.toNat - 65)
  else if 97 ≤ c.toNat ∧ c.toNat ≤ 122 then some (c.toNat - 97 + 26)
  else if 48 ≤ c.toNat ∧ c.toNat ≤ 57 then some (c.toNat - 48 + 52)
  else if c = '+' then some 62
  else if c = '/' then some 63
  else none

/-- Standard padded base64 rendering of a byte list, as the Buffer
base64 encoding produces. -/
def base64Pad : Bytes → List Char
  | [] => []
  | [b1] => [b64Char (b1 / 4), b64Char (b1 % 4 * 16), '=', '=']
  | [b1, b2] => [b64Char (b1 / 4), b64Char (b1 % 4 * 16 + b2 / 16), b64Char (b2 % 16 * 4), '=']
  | b1 :: b2 :: b3 :: rest =>
      b64Char (b1 / 4) :: b64Char (b1 % 4 * 16 + b2 / 16) :: b64Char (b2 % 16 * 4 + b3 / 64)
        :: b64Char (b3 % 64) :: base64Pad rest

/-- Removal of every padding character, as replaceAll of the equals
sign with the empty string does. -/
def stripEq (s : List Char) : List Char := s.filter (fun c => c ≠ '=')

/-- Padding restoration before decoding: the unpadded length determines
how many padding characters to put back; length 1 mod 4 is invalid.
Modelled from the spec (restoring standard padding as needed). -/
def padRestore (s : List Char) : Option (List Char) :=
  if s.length % 4 = 0 then some s
  else if s.length % 4 = 2 then some (s ++ ['=', '='])
  else if s.length % 4 = 3 then some (s ++ ['='])
  else none

/-- Group decoding of padded base64: four characters to three bytes,
with padding allowed only in the final group. -/
def b64DecodeGroups : List Char → Option Bytes
  | [] => some []
  | c1 :: c2 :: c3 :: c4 :: rest =>
    match b64Index c1, b64Index c2 with
    | some i1, some i2 =>
      if c3 = '=' ∧ c4 = '=' ∧ rest = [] then some [i1 * 4 + i2 / 16]
      else if c4 = '=' ∧ rest = [] then
        match b64Index c3 with
        | some i3 => some [i1 * 4 + i2 / 16, i2 % 16 * 16 + i3 / 4]
        | none => none
      else
        match b64Index c3, b64Index c4 with
        | some i3, some i4 =>
          match b64DecodeGroups rest with
          | some bs => some ((i1 * 4 + i2 / 16) :: (i2 % 16 * 16 + i3 / 4) :: (i3 % 4 * 64 + i4) :: bs)
          | none => none
        | _, _ => none
    | _, _ => none
  | _ => none

/-- Base64url alphabet normalization: the url-safe characters are
mapped back to the standard alphabet, everything else kept.  Modelled
from the spec (restoring the standard alphabet as needed). -/
def dashReplace (c : Char) : Char :=
  if c = '-' then '+' else if c = '_' then '/' else c

/-- Base64url decoding of one token segment: normalize the alphabet,
restore padding, decode groups.  Modelled from the spec. -/
def base64UrlDecode (s : List Char) : Option Bytes :=
  match padRestore (s.map dashReplace) with
  | some t => b64DecodeGroups t
  | none => none

mutual

/-- Wellformedness of a value as a byte-level JavaScript object: every
string is a genuine byte sequence (entries below 256).  This is what
"JSON-serializable claim mapping" means in the byte-level model. -/
def Json.wfB : Json → Bool
  | .null => true
  | .bool _ => true
  | .num _ => true
  | .str s => s.all (fun b => b < 256)
  | .arr a => Json.wfLB a
  | .obj o => Json.wfOB o

/-- Wellformedness of an element list. -/
def Json.wfLB : JsonList → Bool
  | .nil => true
  | .cons h t => Json.wfB h && Json.wfLB t

/-- Wellformedness of a member list. -/
def Json.wfOB : JsonObj → Bool
  | .nil => true
  | .cons k v t => k.all (fun b => b < 256) && Json.wfB v && Json.wfOB t

end

/-- Token split on the dot character, as the string split produces:
an empty input yields one empty segment, and every dot starts a new
segment. -/
def splitOnDot : List Char → List (List Char)
  | [] => [[]]
  | c :: rest =>
    if c = '.' then [] :: splitOnDot rest
    else
      match splitOnDot rest with
      | [] => [[c]]
      | s :: ss => (c :: s) :: ss

/-- Structural decode failure, as the specification's error taxonomy
describes: each error carries the offending one-based segment index. -/
inductive DecodeError where
  | invalidInput : DecodeError
  | missingPart : Nat → DecodeError
  | invalidBase64 : Nat → DecodeError
  | invalidJson : Nat → DecodeError
deriving DecidableEq

/-- Modelled from the spec: the token decoding routine itself (the
file the manager imports the decode function from) is not among the
repository sources; only its test file is.  Following the
specification: split the token on dots, take the payload segment
(or the header segment when requested), fail with a missing-part error
when it is absent, base64url-decode it (restoring alphabet and
padding), and JSON-parse the decoded bytes, failing with an
invalid-base64 or invalid-json error respectively.  The invalid-input
case (argument not a string) cannot arise in the typed embedding. -/
def jwtDecodePart (pos : Nat) (tok : List Char) : Except DecodeError Json :=
  match (splitOnDot tok).get? pos with
  | none => .error (.missingPart (pos + 1))
  | some seg =>
    match base64UrlDecode seg with
    | none => .error (.invalidBase64 (pos + 1))
    | some bytes =>
      match jsonParse bytes with
      | none => .error (.invalidJson (pos + 1))
      | some j => .ok j

/-- Modelled from the spec: position selection of the decode routine,
header segment when requested and payload segment by default. -/
def jwtDecode (header : Bool) (tok : List Char) : Except DecodeError Json :=
  jwtDecodePart (if header then 0 else 1) tok

/-- One segment of the mock encoder: standard base64 of the serialized
JSON with every padding character removed, embedding the test
fixture's base64Encode helper. -/
def mockB64Encode (j : Json) : List Char := stripEq (base64Pad (serializeJson j))

/-- Fixed mock token header. -/
def mockHeader : Json :=
  .obj (.cons (strBytes "alg") (.str (strBytes "HS256"))
    (.cons (strBytes "typ") (.str (strBytes "JWT")) .nil))

/-- Embedding of createMockJwt: encoded header, encoded payload, and
encoded secret string joined with dots. -/
def createMockJwt (payload : JsonObj) (secret : Bytes) : List Char :=
  mockB64Encode mockHeader
    ++ ('.' :: (mockB64Encode (.obj payload) ++ ('.' :: mockB64Encode (.str secret))))

/-- Embedding of createMockJwt applied with its default secret. -/
def createMockJwtDefault (payload : JsonObj) : List Char :=
  createMockJwt payload (strBytes "mock-secret")

/-- Errors the validation pipeline can raise: a structural decode
failure, the CriteriaNotBefore error (carrying the nbf claim and the
current time), the TokenExpired error (carrying the exp claim and the
current time), or an error thrown by the custom validation hook. -/
inductive JwtError where
  | decode : DecodeError → JwtError
  | notBefore : Int → Int → JwtError
  | expired : Int → Int → JwtError
  | custom : String → JwtError
deriving DecidableEq

/-- Default customValidation hook of the manager class: a no-op. -/
def customValidationDefault : Json → Except String Unit := fun _ => .ok ()

/-- Not-before violation test, embedding the first guard of
isValidTime: the check runs only when the nbf claim is truthy (a JS
falsiness test, so a present nbf of zero is skipped) and the current
time is before it.  A present non-numeric nbf is treated as passing,
matching the not-a-number comparison result for non-numeric values. -/
def nbfViolation (decoded : Json) (now : Int) : Option Int :=
  match jsonField decoded (strBytes "nbf") with
  | some (.num b) => if b ≠ 0 ∧ now < b then some b else none
  | _ => none

/-- Temporal and custom validation of decoded claims, embedding the
body of the manager's isValidTime after its decode step: the
not-before guard first; then, when the exp claim is falsy (absent,
zero, or otherwise falsy), an early successful return that skips the
remaining steps; then the inclusive expiration comparison; finally the
custom hook.  A present non-numeric truthy exp falls through to the
hook, matching the not-a-number comparison result. -/
def checkTime (cv : Json → Except String Unit) (decoded : Json) (now : Int) :
    Except JwtError Unit :=
  match nbfViolation decoded now with
  | some b => .error (.notBefore b now)
  | none =>
    match jsonField decoded (strBytes "exp") with
    | none => .ok ()
    | some v =>
      if jsTruthy v then
        match v with
        | .num e =>
          if e ≤ now then .error (.expired e now)
          else (cv decoded).mapError JwtError.custom
        | _ => (cv decoded).mapError JwtError.custom
      else .ok ()

/-- Embedding of the manager's isValidTime: decode the token (a decode
failure propagates), then run the temporal and custom checks. -/
def isValidTime (cv : Json → Except String Unit) (tok : List Char) (now : Int) :
    Except JwtError Unit :=
  match jwtDecode false tok with
  | .error e => .error (.decode e)
  | .ok decoded => checkTime cv decoded now

/-- Browser key-value storage backend: string keys to string values,
with lookup, replace-or-append insertion, and removal. -/
abbrev Storage := List (String × List Char)

/-- Storage getItem: the stored value, or absent. -/
def getItem (key : String) : Storage → Option (List Char)
  | [] => none
  | (k, v) :: t => if k = key then some v else getItem key t

/-- Storage setItem: replaces the binding or appends a new one. -/
def setItem (key : String) (value : List Char) : Storage → Storage
  | [] => [(key, value)]
  | (k, v) :: t => if k = key then (key, value) :: t else (k, v) :: setItem key value t

/-- Storage removeItem: drops every binding of the key. -/
def removeItem (key : String) : Storage → Storage
  | [] => []
  | (k, v) :: t => if k = key then removeItem key t else (k, v) :: removeItem key t

/-- The two storage backends selectable at construction.  The
persistent backend is named localStore because its source name is a
reserved word here. -/
inductive StorageType where
  | session : StorageType
  | localStore : StorageType
deriving DecidableEq

/-- Immutable per-instance configuration: storage key and storage
type, set by the constructor. -/
structure ManagerConfig where
  key : String
  storageType : StorageType

/-- Embedding of the constructor with both arguments. -/
def mkManager (key : String) (storageType : StorageType) : ManagerConfig :=
  { key := key, storageType := storageType }

/-- Embedding of the constructor with the storage type omitted: the
declared default is session storage. -/
def mkManagerDefault (key : String) : ManagerConfig := mkManager key .session

/-- The two browser storage backends together. -/
structure BrowserState where
  sessionStore : Storage
  localStore : Storage

/-- Embedding of the private storage getter: the persistent backend
for the local storage type, the session backend otherwise. -/
def storageOf : StorageType → BrowserState → Storage
  | .localStore, b => b.localStore
  | .session, b => b.sessionStore

/-- Writing back the resolved backend, leaving the other untouched. -/
def putStorage : StorageType → Storage → BrowserState → BrowserState
  | .localStore, s, b => { b with localStore := s }
  | .session, s, b => { b with sessionStore := s }

/-- Embedding of the token setter on the resolved backend: validate,
then store.  A validation error propagates to the caller and the
storage is returned untouched. -/
def setToken (cv : Json → Except String Unit) (key : String) (now : Int)
    (value : List Char) (st : Storage) : Except JwtError Unit × Storage :=
  match isValidTime cv value now with
  | .error e => (.error e, st)
  | .ok _ => (.ok (), setItem key value st)

/-- Embedding of the token setter at the browser level, resolving the
backend from the configuration as the private storage getter does. -/
def setTokenState (cv : Json → Except String Unit) (cfg : ManagerConfig) (now : Int)
    (value : List Char) (b : BrowserState) : Except JwtError Unit × BrowserState :=
  match isValidTime cv value now with
  | .error e => (.error e, b)
  | .ok _ =>
    (.ok (), putStorage cfg.storageType
      (setItem cfg.key value (storageOf cfg.storageType b)) b)

/-- Embedding of the token getter: absent when nothing is stored;
when the stored value fails validation for any reason the key is
removed and absent is returned (the catch block swallows the error);
otherwise the raw stored string is returned and storage is untouched. -/
def getToken (cv : Json → Except String Unit) (key : String) (now : Int)
    (st : Storage) : Option (List Char) × Storage :=
  match getItem key st with
  | none => (none, st)
  | some tok =>
    match isValidTime cv tok now with
    | .error _ => (none, removeItem key st)
    | .ok _ => (some tok, st)

/-- Embedding of the data getter: read the token (with its eviction
side effect), then decode it when present.  The decode cannot fail on
a token the getter returned, because validation already decoded it;
the impossible error case is mapped to absent. -/
def dataOp (cv : Json → Except String Unit) (key : String) (now : Int)
    (st : Storage) : Option Json × Storage :=
  match getToken cv key now st with
  | (none, st2) => (none, st2)
  | (some tok, st2) => ((jwtDecode false tok).toOption, st2)

/-- Common shape of the seven claim accessor getters: project one
claim out of the decoded data, absent when the data or the claim is
absent. -/
def claimOp (claim : Bytes) (cv : Json → Except String Unit) (key : String)
    (now : Int) (st : Storage) : Option Json × Storage :=
  match dataOp cv key now st with
  | (d, st2) => (d.bind (fun j => jsonField j claim), st2)

/-- The issuer accessor. -/
def issuerOp := claimOp (strBytes "iss")

/-- The expirationTime accessor. -/
def expirationTimeOp := claimOp (strBytes "exp")

/-- The subject accessor. -/
def subjectOp := claimOp (strBytes "sub")

/-- The audience accessor. -/
def audienceOp := claimOp (strBytes "aud")

/-- The notBefore accessor. -/
def notBeforeOp := claimOp (strBytes "nbf")

/-- The issuedAt accessor. -/
def issuedAtOp := claimOp (strBytes "iat")

/-- The jwtId accessor. -/
def jwtIdOp := claimOp (strBytes "jti")

/-- Embedding of the earlier variant's hasExpired: no not-before
handling; a falsy exp claim (absent, zero, or otherwise falsy) means
never expired; otherwise expired exactly when exp is strictly before
the current time.  A decode failure propagates. -/
def hasExpired (tok : List Char) (now : Int) : Except DecodeError Bool :=
  match jwtDecode false tok with
  | .error e => .error e
  | .ok decoded =>
    match jsonField decoded (strBytes "exp") with
    | some (.num e) => .ok (decide (e ≠ 0 ∧ e < now))
    | _ => .ok false

/-- Embedding of the earlier variant's token setter: an expired token
is logged and silently not stored (the caller sees a normal return);
a valid token is stored. -/
def oldSetToken (key : String) (now : Int) (value : List Char) (st : Storage) :
    Except DecodeError Storage :=
  match hasExpired value now with
  | .error e => .error e
  | .ok true => .ok st
  | .ok false => .ok (setItem key value st)

/-- Claim mapping with a single exp claim, used in concrete tokens. -/
def expObj (e : Int) : JsonObj := .cons (strBytes "exp") (.num e) .nil

/-- Custom validation hook that rejects every token, for exercising
the hook-invocation behavior. -/
def rejectHook : Json → Except String Unit := fun _ => .error "rejected"

/-- Concrete mock token with a far-future expiration. -/
def mockTok : List Char := createMockJwtDefault (expObj 2000000000)

/-- Digit bytes of a natural number are decimal digit bytes. -/
theorem natDigitsAux_digits : ∀ (fuel n : Nat), ∀ b ∈ natDigitsAux fuel n, isDigitByte b = true := by
  intro fuel
  induction fuel with
  | zero =>
    intro n b hb
    simp only [natDigitsAux, List.mem_singleton] at hb
    subst hb
    simp only [isDigitByte, decide_eq_true_eq]
    omega
  | succ f ih =>
    intro n b hb
    simp only [natDigitsAux] at hb
    split at hb
    · simp only [List.mem_singleton] at hb
      subst hb
      simp only [isDigitByte, decide_eq_true_eq]
      omega
    · rcases List.mem_append.mp hb with h | h
      · exact ih _ b h
      · simp only [List.mem_singleton] at h
        subst h
        simp only [isDigitByte, decide_eq_true_eq]
        omega

/-- Digit bytes of a natural number form a nonempty list. -/
theorem natDigitsAux_ne_nil (fuel n : Nat) : natDigitsAux fuel n ≠ [] := by
  cases fuel with
  | zero => simp [natDigitsAux]
  | succ f =>
    simp only [natDigitsAux]
    split
    · simp
    · simp

/-- Folding a digit list with one more digit appended multiplies the
accumulated value by ten and adds that digit. -/
theorem digitsToNat_append_one (ds : Bytes) (b : Nat) :
    digitsToNat (ds ++ [b]) = digitsToNat ds * 10 + (b - 48) := by
  simp [digitsToNat, List.foldl_append]

/-- Digit bytes evaluate back to the number they came from, given
enough fuel. -/
theorem digitsToNat_natDigitsAux : ∀ (fuel n : Nat), n ≤ fuel →
    digitsToNat (natDigitsAux fuel n) = n := by
  intro fuel
  induction fuel with
  | zero =>
    intro n hn
    interval_cases n
    simp [natDigitsAux, digitsToNat]
  | succ f ih =>
    intro n hn
    simp only [natDigitsAux]
    split
    · rename_i h
      simp only [digitsToNat, List.foldl_cons, List.foldl_nil]
      omega
    · rename_i h
      rw [digitsToNat_append_one, ih (n / 10) (by omega)]
      omega

/-- Digit bytes of a natural number evaluate back to it. -/
theorem digitsToNat_natDigits (n : Nat) : digitsToNat (natDigits n) = n :=
  digitsToNat_natDigitsAux n n (Nat.le_refl n)

/-- Taking digits from a digit run followed by a non-digit returns the
run and the follower untouched. -/
theorem takeDigits_exact (ds : Bytes) (hds : ∀ b ∈ ds, isDigitByte b = true) (rest : Bytes)
    (hr : notDigitStart rest = true) : takeDigits (ds ++ rest) = (ds, rest) := by
  induction ds with
  | nil =>
    cases rest with
    | nil => simp [takeDigits]
    | cons b r =>
      simp only [notDigitStart, Bool.not_eq_true'] at hr
      simp [takeDigits, hr]
  | cons d ds ih =>
    have hd := hds d (List.mem_cons_self d ds)
    have ih2 := ih (fun b hb => hds b (List.mem_cons_of_mem d hb))
    simp [takeDigits, hd, ih2]

/-- Digit bytes of a natural number: the list is nonempty and starts
with a digit byte. -/
theorem natDigits_cons (m : Nat) :
    ∃ d ds, natDigits m = d :: ds ∧ isDigitByte d = true := by
  have hne := natDigitsAux_ne_nil m m
  have hdig := natDigitsAux_digits m m
  rcases h : natDigitsAux m m with _ | ⟨d, ds⟩
  · exact absurd h hne
  · refine ⟨d, ds, h, hdig d ?_⟩
    rw [h]
    exact List.mem_cons_self d ds

/-- Taking digits from rendered digits followed by a non-digit returns
them untouched. -/
theorem takeDigits_natDigits (m : Nat) (rest : Bytes) (hr : notDigitStart rest = true) :
    takeDigits (natDigits m ++ rest) = (natDigits m, rest) :=
  takeDigits_exact _ (natDigitsAux_digits _ _) rest hr

/-- An integer literal rendered by the serializer parses back exactly
when it is followed by a non-digit. -/
theorem parseIntBytes_intBytes (n : Int) (rest : Bytes) (hr : notDigitStart rest = true) :
    parseIntBytes (intBytes n ++ rest) = some (n, rest) := by
  by_cases hn : n < 0
  · obtain ⟨d, ds, hne, hd⟩ := natDigits_cons n.natAbs
    have hval : digitsToNat (d :: ds) = n.natAbs := by rw [← hne, digitsToNat_natDigits]
    have htake : takeDigits (natDigits n.natAbs ++ rest) = (d :: ds, rest) := by
      rw [takeDigits_natDigits _ _ hr, hne]
    simp only [intBytes, if_pos hn, List.cons_append]
    simp [parseIntBytes, htake, hval]
    rw [abs_of_neg hn]
    omega
  · obtain ⟨d, ds, hne, hd⟩ := natDigits_cons n.toNat
    have hd45 : ¬ d = 45 := by
      simp only [isDigitByte, decide_eq_true_eq] at hd
      omega
    have hval : digitsToNat (d :: ds) = n.toNat := by rw [← hne, digitsToNat_natDigits]
    have harg : intBytes n ++ rest = d :: (ds ++ rest) := by
      rw [intBytes, if_neg hn, hne]
      rfl
    have htake2 : takeDigits (d :: (ds ++ rest)) = (d :: ds, rest) := by
      have harg2 : d :: (ds ++ rest) = natDigits n.toNat ++ rest := by
        rw [hne]
        rfl
      rw [harg2, takeDigits_natDigits _ _ hr, hne]
    rw [harg]
    simp [parseIntBytes, hd45, htake2, hval]
    omega

/-- Hexadecimal digit bytes decode to the value they encode. -/
theorem hexVal_hexDigitByte : ∀ m : Nat, m < 16 → hexVal (hexDigitByte m) = some m := by decide

/-- Parsing an unescaped (plain) byte in a string body conses it onto
the parse of the remaining body. -/
theorem parseStringBody_plain (b : Nat) (k : Bytes) (h34 : ¬ b = 34) (h92 : ¬ b = 92) :
    parseStringBody (b :: k) =
      match parseStringBody k with
      | some (s, r) => some (b :: s, r)
      | none => none := by
  rw [parseStringBody.eq_def]
  simp only [if_neg h34, if_neg h92]

/-- Parsing one escaped byte undoes the escaping and continues with the
remaining input. -/
theorem parseStringBody_escape (b : Nat) (k : Bytes) :
    parseStringBody (escapeByte b ++ k) =
      match parseStringBody k with
      | some (s, r) => some (b :: s, r)
      | none => none := by
  by_cases h34 : b = 34
  · subst h34
    simp [escapeByte, parseStringBody, escShort]
  by_cases h92 : b = 92
  · subst h92
    simp [escapeByte, parseStringBody, escShort]
  by_cases h8 : b = 8
  · subst h8
    simp [escapeByte, parseStringBody, escShort]
  by_cases h9 : b = 9
  · subst h9
    simp [escapeByte, parseStringBody, escShort]
  by_cases h10 : b = 10
  · subst h10
    simp [escapeByte, parseStringBody, escShort]
  by_cases h12 : b = 12
  · subst h12
    simp [escapeByte, parseStringBody, escShort]
  by_cases h13 : b = 13
  · subst h13
    simp [escapeByte, parseStringBody, escShort]
  by_cases hc : b < 32
  · have h1 : hexVal (hexDigitByte (b / 16)) = some (b / 16) := hexVal_hexDigitByte _ (by omega)
    have h2 : hexVal (hexDigitByte (b % 16)) = some (b % 16) := hexVal_hexDigitByte _ (by omega)
    have h0 : hexVal 48 = some 0 := by decide
    have hlt : b < 128 := by omega
    simp only [escapeByte, if_neg h34, if_neg h92, if_neg h8, if_neg h9, if_neg h10,
      if_neg h12, if_neg h13, if_pos hc, List.cons_append, parseStringBody]
    have hdm : b / 16 * 16 + b % 16 = b := by omega
    norm_num [h0, h1, h2, hdm, hlt]
  · have harg : escapeByte b ++ k = b :: k := by
      simp [escapeByte, h34, h92, h8, h9, h10, h12, h13, hc]
    rw [harg, parseStringBody_plain b k h34 h92]

/-- Parsing an escaped body followed by the closing quote recovers the
original bytes. -/
theorem parseStringBody_escapes (s : Bytes) : ∀ k : Bytes,
    parseStringBody (escapeBytes s ++ 34 :: k) = some (s, k) := by
  induction s with
  | nil =>
    intro k
    show parseStringBody (34 :: k) = some ([], k)
    rw [parseStringBody.eq_def]
    simp
  | cons b s ih =>
    intro k
    have harg : escapeBytes (b :: s) ++ 34 :: k = escapeByte b ++ (escapeBytes s ++ 34 :: k) := by
      simp [escapeBytes]
    rw [harg, parseStringBody_escape, ih]

/-- Expecting a byte pattern at the head of itself plus a tail
succeeds and returns the tail. -/
theorem expectBytes_self : ∀ (ps bs : Bytes), expectBytes ps (ps ++ bs) = some bs := by
  intro ps
  induction ps with
  | nil => intro bs; rfl
  | cons p ps ih => intro bs; simp [expectBytes, ih]

/-- Rendered integers are nonempty and start with a minus sign or a
digit byte. -/
theorem intBytes_head (n : Int) :
    ∃ b t, intBytes n = b :: t ∧ (b = 45 ∨ isDigitByte b = true) := by
  by_cases hn : n < 0
  · refine ⟨45, natDigits n.natAbs, ?_, Or.inl rfl⟩
    rw [intBytes, if_pos hn]
  · obtain ⟨d, ds, hne, hd⟩ := natDigits_cons n.toNat
    refine ⟨d, ds, ?_, Or.inr hd⟩
    rw [intBytes, if_neg hn, hne]

/-- Serialized values are nonempty and never start with a closing
bracket, so the array parser can tell an element from the end. -/
theorem serializeJson_head (j : Json) :
    ∃ b t, serializeJson j = b :: t ∧ ¬ b = 93 := by
  cases j with
  | null => exact ⟨110, _, rfl, by decide⟩
  | bool b =>
    cases b with
    | false => exact ⟨102, _, rfl, by decide⟩
    | true => exact ⟨116, _, rfl, by decide⟩
  | num n =>
    obtain ⟨b, t, h, hb⟩ := intBytes_head n
    refine ⟨b, t, ?_, ?_⟩
    · rw [show serializeJson (.num n) = intBytes n from rfl, h]
    · rcases hb with h45 | hd
      · omega
      · simp only [isDigitByte, decide_eq_true_eq] at hd
        omega
  | str s => exact ⟨34, _, rfl, by decide⟩
  | arr a => exact ⟨91, _, rfl, by decide⟩
  | obj o => exact ⟨123, _, rfl, by decide⟩

/-- A serialized element list headed by an element starts with that
element's bytes. -/
theorem serializeElems_cons (h : Json) (t : JsonList) :
    ∃ u, serializeElems (.cons h t) = serializeJson h ++ u := by
  cases t with
  | nil => exact ⟨[], by simp [serializeElems]⟩
  | cons h2 t2 => exact ⟨44 :: serializeElems (.cons h2 t2), by simp [serializeElems]⟩

/-- A serialized member list headed by a member starts with that
member's serialized key. -/
theorem serializeMembers_cons (k : Bytes) (v : Json) (o : JsonObj) :
    ∃ u, serializeMembers (.cons k v o) = serializeString k ++ u := by
  cases o with
  | nil => exact ⟨58 :: serializeJson v, by simp [serializeMembers]⟩
  | cons k2 v2 o2 =>
    exact ⟨58 :: serializeJson v ++ 44 :: serializeMembers (.cons k2 v2 o2),
      by simp [serializeMembers]⟩

/-- Value sizes are positive, so the parser fuel bound is vacuous at
zero fuel. -/
theorem Json.size_pos (j : Json) : 1 ≤ Json.size j := by
  cases j <;> simp [Json.size]

/-- Main round-trip invariant, proved for the three parsers at once by
induction on fuel: a serialized value (or nonempty element or member
list) parses back exactly, leaving the follower input untouched. -/
theorem parse_serialize_rt : ∀ fuel : Nat,
    (∀ (j : Json) (rest : Bytes), Json.size j ≤ fuel → notDigitStart rest = true →
      parseValue fuel (serializeJson j ++ rest) = some (j, rest)) ∧
    (∀ (h : Json) (t : JsonList) (rest : Bytes), Json.sizeL (.cons h t) ≤ fuel →
      parseElems fuel (serializeElems (.cons h t) ++ 93 :: rest) = some (.cons h t, rest)) ∧
    (∀ (k : Bytes) (v : Json) (o : JsonObj) (rest : Bytes), Json.sizeO (.cons k v o) ≤ fuel →
      parseMembers fuel (serializeMembers (.cons k v o) ++ 125 :: rest) = some (.cons k v o, rest)) := by
  intro fuel
  induction fuel with
  | zero =>
    refine ⟨?_, ?_, ?_⟩
    · intro j rest hsz hrd
      have := Json.size_pos j
      omega
    · intro h t rest hsz
      have := Json.size_pos h
      simp only [Json.sizeL] at hsz
      omega
    · intro k v o rest hsz
      have := Json.size_pos v
      simp only [Json.sizeO] at hsz
      omega
  | succ fuel ih =>
    obtain ⟨ihV, ihE, ihM⟩ := ih
    refine ⟨?_, ?_, ?_⟩
    · intro j rest hsz hrd
      cases j with
      | null =>
        show parseValue (fuel + 1) (110 :: 117 :: 108 :: 108 :: rest) = some (.null, rest)
        simp [parseValue, expectBytes]
      | bool b =>
        cases b with
        | true =>
          show parseValue (fuel + 1) (116 :: 114 :: 117 :: 101 :: rest) = some (.bool true, rest)
          simp [parseValue, expectBytes]
        | false =>
          show parseValue (fuel + 1)
              (102 :: 97 :: 108 :: 115 :: 101 :: rest) = some (.bool false, rest)
          simp [parseValue, expectBytes]
      | num n =>
        obtain ⟨d, t0, hne, hd⟩ := intBytes_head n
        have hdr : d = 45 ∨ (48 ≤ d ∧ d ≤ 57) := by
          rcases hd with h | h
          · exact Or.inl h
          · simp only [isDigitByte, decide_eq_true_eq] at h
            exact Or.inr h
        have harg : serializeJson (.num n) ++ rest = d :: (t0 ++ rest) := by
          rw [show serializeJson (.num n) = intBytes n from rfl, hne, List.cons_append]
        rw [harg]
        simp only [parseValue]
        rw [if_neg (by omega : ¬ d = 110), if_neg (by omega : ¬ d = 116),
          if_neg (by omega : ¬ d = 102), if_neg (by omega : ¬ d = 34),
          if_neg (by omega : ¬ d = 91), if_neg (by omega : ¬ d = 123),
          if_pos (show d = 45 ∨ isDigitByte d = true from hd)]
        have hpi : parseIntBytes (d :: (t0 ++ rest)) = some (n, rest) := by
          have harg2 : d :: (t0 ++ rest) = intBytes n ++ rest := by
            rw [hne, List.cons_append]
          rw [harg2]
          exact parseIntBytes_intBytes n rest hrd
        rw [hpi]
      | str s =>
        have harg : serializeJson (.str s) ++ rest = 34 :: (escapeBytes s ++ 34 :: rest) := by
          show (34 :: escapeBytes s ++ [34]) ++ rest = 34 :: (escapeBytes s ++ 34 :: rest)
          simp
        rw [harg]
        simp only [parseValue]
        simp [parseStringBody_escapes s rest]
      | arr a =>
        cases a with
        | nil =>
          show parseValue (fuel + 1) (91 :: 93 :: rest) = some (.arr .nil, rest)
          simp [parseValue]
        | cons h t =>
          have hszE : Json.sizeL (.cons h t) ≤ fuel := by
            simp only [Json.size] at hsz
            omega
          have he := ihE h t rest hszE
          obtain ⟨b0, t0, hh, hb0⟩ := serializeJson_head h
          obtain ⟨u, hu⟩ := serializeElems_cons h t
          have harg : serializeJson (.arr (.cons h t)) ++ rest
              = 91 :: (serializeElems (.cons h t) ++ 93 :: rest) := by
            show (91 :: serializeElems (.cons h t) ++ [93]) ++ rest
                = 91 :: (serializeElems (.cons h t) ++ 93 :: rest)
            simp
          have hshape : serializeElems (.cons h t) ++ 93 :: rest
              = b0 :: (t0 ++ (u ++ 93 :: rest)) := by
            rw [hu, hh]
            simp
          have hpe : parseElems fuel (b0 :: (t0 ++ (u ++ 93 :: rest)))
              = some (.cons h t, rest) := by
            rw [← hshape]
            exact he
          rw [harg]
          simp only [parseValue]
          rw [hshape]
          simp [hb0, hpe]
      | obj o =>
        cases o with
        | nil =>
          show parseValue (fuel + 1) (123 :: 125 :: rest) = some (.obj .nil, rest)
          simp [parseValue]
        | cons k v o2 =>
          have hszM : Json.sizeO (.cons k v o2) ≤ fuel := by
            simp only [Json.size] at hsz
            omega
          have hm := ihM k v o2 rest hszM
          obtain ⟨u, hu⟩ := serializeMembers_cons k v o2
          have harg : serializeJson (.obj (.cons k v o2)) ++ rest
              = 123 :: (serializeMembers (.cons k v o2) ++ 125 :: rest) := by
            show (123 :: serializeMembers (.cons k v o2) ++ [125]) ++ rest
                = 123 :: (serializeMembers (.cons k v o2) ++ 125 :: rest)
            simp
          have hshape : serializeMembers (.cons k v o2) ++ 125 :: rest
              = 34 :: (escapeBytes k ++ (34 :: (u ++ 125 :: rest))) := by
            rw [hu]
            show (34 :: escapeBytes k ++ [34]) ++ u ++ 125 :: rest = _
            simp
          have hpm : parseMembers fuel (34 :: (escapeBytes k ++ (34 :: (u ++ 125 :: rest))))
              = some (.cons k v o2, rest) := by
            rw [← hshape]
            exact hm
          rw [harg]
          simp only [parseValue]
          rw [hshape]
          simp [hpm]
    · intro h t rest hsz
      cases t with
      | nil =>
        have hszV : Json.size h ≤ fuel := by
          simp only [Json.sizeL] at hsz
          omega
        have hv := ihV h (93 :: rest) hszV rfl
        show parseElems (fuel + 1) (serializeJson h ++ 93 :: rest) = some (.cons h .nil, rest)
        simp only [parseElems]
        rw [hv]
        simp
      | cons h2 t2 =>
        have hszV : Json.size h ≤ fuel := by
          simp only [Json.sizeL] at hsz
          omega
        have hszE2 : Json.sizeL (.cons h2 t2) ≤ fuel := by
          have := Json.size_pos h
          simp only [Json.sizeL] at hsz ⊢
          omega
        have hv := ihV h (44 :: (serializeElems (.cons h2 t2) ++ 93 :: rest)) hszV rfl
        have he2 := ihE h2 t2 rest hszE2
        have harg : serializeElems (.cons h (.cons h2 t2)) ++ 93 :: rest
            = serializeJson h ++ (44 :: (serializeElems (.cons h2 t2) ++ 93 :: rest)) := by
          show (serializeJson h ++ 44 :: serializeElems (.cons h2 t2)) ++ 93 :: rest = _
          simp
        rw [harg]
        simp only [parseElems]
        rw [hv]
        simp [he2]
    · intro k v o rest hsz
      have hszV : Json.size v ≤ fuel := by
        simp only [Json.sizeO] at hsz
        omega
      cases o with
      | nil =>
        have hv := ihV v (125 :: rest) hszV rfl
        have harg : serializeMembers (.cons k v .nil) ++ 125 :: rest
            = 34 :: (escapeBytes k ++ 34 :: (58 :: (serializeJson v ++ 125 :: rest))) := by
          show (serializeString k ++ 58 :: serializeJson v) ++ 125 :: rest = _
          simp [serializeString]
        rw [harg]
        simp only [parseMembers]
        simp [parseStringBody_escapes, hv]
      | cons k2 v2 o2 =>
        have hszM2 : Json.sizeO (.cons k2 v2 o2) ≤ fuel := by
          have := Json.size_pos v
          simp only [Json.sizeO] at hsz ⊢
          omega
        have hv := ihV v (44 :: (serializeMembers (.cons k2 v2 o2) ++ 125 :: rest)) hszV rfl
        have hm2 := ihM k2 v2 o2 rest hszM2
        have harg : serializeMembers (.cons k v (.cons k2 v2 o2)) ++ 125 :: rest
            = 34 :: (escapeBytes k ++ 34 ::
                (58 :: (serializeJson v ++ 44 :: (serializeMembers (.cons k2 v2 o2) ++ 125 :: rest)))) := by
          show (serializeString k ++ 58 :: serializeJson v
              ++ 44 :: serializeMembers (.cons k2 v2 o2)) ++ 125 :: rest = _
          simp [serializeString]
        rw [harg]
        simp only [parseMembers]
        simp [parseStringBody_escapes, hv, hm2]

mutual

/-- Parser fuel bound: a value needs no more fuel than the length of
its serialization. -/
theorem Json.size_le_length : ∀ j : Json, Json.size j ≤ (serializeJson j).length
  | .null => by simp [Json.size, serializeJson]
  | .bool b => by cases b <;> simp [Json.size, serializeJson]
  | .num n => by
    obtain ⟨d, t, h, _⟩ := intBytes_head n
    simp [Json.size, serializeJson, h]
  | .str s => by
    simp [Json.size, serializeJson, serializeString]
  | .arr a => by
    have := Json.sizeL_le_length a
    simp only [Json.size, serializeJson, List.length_cons, List.length_append]
    omega
  | .obj o => by
    have := Json.sizeO_le_length o
    simp only [Json.size, serializeJson, List.length_cons, List.length_append]
    omega

/-- Fuel bound for element lists. -/
theorem Json.sizeL_le_length : ∀ l : JsonList, Json.sizeL l ≤ (serializeElems l).length + 1
  | .nil => by simp [Json.sizeL, serializeElems]
  | .cons h .nil => by
    have := Json.size_le_length h
    simp only [Json.sizeL, serializeElems]
    omega
  | .cons h (.cons h2 t) => by
    have h1 := Json.size_le_length h
    have h2l := Json.sizeL_le_length (.cons h2 t)
    rw [show Json.sizeL (.cons h (.cons h2 t))
        = Json.size h + Json.sizeL (.cons h2 t) + 1 from rfl]
    rw [show serializeElems (.cons h (.cons h2 t))
        = serializeJson h ++ 44 :: serializeElems (.cons h2 t) from rfl]
    simp only [List.length_append, List.length_cons]
    omega

/-- Fuel bound for member lists. -/
theorem Json.sizeO_le_length : ∀ o : JsonObj, Json.sizeO o ≤ (serializeMembers o).length + 1
  | .nil => by simp [Json.sizeO, serializeMembers]
  | .cons k v .nil => by
    have := Json.size_le_length v
    simp only [Json.sizeO, serializeMembers, serializeString, List.length_append,
      List.length_cons]
    omega
  | .cons k v (.cons k2 v2 t) => by
    have h1 := Json.size_le_length v
    have h2l := Json.sizeO_le_length (.cons k2 v2 t)
    rw [show Json.sizeO (.cons k v (.cons k2 v2 t))
        = Json.size v + Json.sizeO (.cons k2 v2 t) + 1 from rfl]
    rw [show serializeMembers (.cons k v (.cons k2 v2 t))
        = serializeString k ++ 58 :: serializeJson v ++ 44 :: serializeMembers (.cons k2 v2 t)
      from rfl]
    simp only [serializeString, List.length_append, List.length_cons]
    omega

end

/-- Whole-text JSON round-trip: parsing a serialized value yields it
back. -/
theorem jsonParse_serializeJson (j : Json) : jsonParse (serializeJson j) = some j := by
  have hsz : Json.size j ≤ (serializeJson j).length + 1 := by
    have := Json.size_le_length j
    omega
  have h := (parse_serialize_rt ((serializeJson j).length + 1)).1 j [] hsz rfl
  rw [List.append_nil] at h
  rw [jsonParse, h]

/-- Alphabet characters decode back to their index. -/
theorem b64Index_b64Char : ∀ i : Nat, i < 64 → b64Index (b64Char i) = some i := by decide

/-- Alphabet characters are not padding, not a dot, and fixed by the
url-alphabet normalization. -/
theorem b64Char_props : ∀ i : Nat, i < 64 →
    b64Char i ≠ '=' ∧ b64Char i ≠ '.' ∧ dashReplace (b64Char i) = b64Char i := by decide

/-- Characters of a padded base64 rendering are alphabet characters or
padding. -/
theorem base64Pad_chars : ∀ bs : Bytes, (∀ b ∈ bs, b < 256) →
    ∀ c ∈ base64Pad bs, (∃ i, i < 64 ∧ c = b64Char i) ∨ c = '='
  | [], _ => by simp [base64Pad]
  | [b1], h => by
    have h1 : b1 < 256 := h b1 (by simp)
    intro c hc
    simp only [base64Pad, List.mem_cons, List.not_mem_nil, or_false] at hc
    rcases hc with rfl | rfl | rfl | rfl
    · exact Or.inl ⟨b1 / 4, by omega, rfl⟩
    · exact Or.inl ⟨b1 % 4 * 16, by omega, rfl⟩
    · exact Or.inr rfl
    · exact Or.inr rfl
  | [b1, b2], h => by
    have h1 : b1 < 256 := h b1 (by simp)
    have h2 : b2 < 256 := h b2 (by simp)
    intro c hc
    simp only [base64Pad, List.mem_cons, List.not_mem_nil, or_false] at hc
    rcases hc with rfl | rfl | rfl | rfl
    · exact Or.inl ⟨b1 / 4, by omega, rfl⟩
    · exact Or.inl ⟨b1 % 4 * 16 + b2 / 16, by omega, rfl⟩
    · exact Or.inl ⟨b2 % 16 * 4, by omega, rfl⟩
    · exact Or.inr rfl
  | b1 :: b2 :: b3 :: rest3, h => by
    have h1 : b1 < 256 := h b1 (by simp)
    have h2 : b2 < 256 := h b2 (by simp)
    have h3 : b3 < 256 := h b3 (by simp)
    have ih := base64Pad_chars rest3 (fun b hb => h b (by simp [hb]))
    intro c hc
    simp only [base64Pad, List.mem_cons] at hc
    rcases hc with rfl | rfl | rfl | rfl | hmem
    · exact Or.inl ⟨b1 / 4, by omega, rfl⟩
    · exact Or.inl ⟨b1 % 4 * 16 + b2 / 16, by omega, rfl⟩
    · exact Or.inl ⟨b2 % 16 * 4 + b3 / 64, by omega, rfl⟩
    · exact Or.inl ⟨b3 % 64, by omega, rfl⟩
    · exact ih c hmem

/-- Stripped base64 renderings consist of alphabet characters only. -/
theorem strip_base64Pad_chars (bs : Bytes) (h : ∀ b ∈ bs, b < 256) :
    ∀ c ∈ stripEq (base64Pad bs), ∃ i, i < 64 ∧ c = b64Char i := by
  intro c hc
  rw [stripEq, List.mem_filter] at hc
  rcases base64Pad_chars bs h c hc.1 with halpha | heq
  · exact halpha
  · rw [heq] at hc
    simp at hc

/-- Padding restoration commutes with a leading full group. -/
theorem padRestore_cons4 (c1 c2 c3 c4 : Char) (t : List Char) :
    padRestore (c1 :: c2 :: c3 :: c4 :: t)
      = (padRestore t).map (fun z => c1 :: c2 :: c3 :: c4 :: z) := by
  have hlen : (c1 :: c2 :: c3 :: c4 :: t).length % 4 = t.length % 4 := by
    simp only [List.length_cons]
    omega
  simp only [padRestore, hlen]
  by_cases h0 : t.length % 4 = 0
  · simp [h0]
  by_cases h2 : t.length % 4 = 2
  · simp [h0, h2]
  by_cases h3 : t.length % 4 = 3
  · simp [h0, h2, h3]
  · simp [h0, h2, h3]

/-- Stripping the padding of a base64 rendering and then restoring it
recovers the padded rendering. -/
theorem padRestore_strip_base64Pad : ∀ bs : Bytes, (∀ b ∈ bs, b < 256) →
    padRestore (stripEq (base64Pad bs)) = some (base64Pad bs)
  | [], _ => rfl
  | [b1], h => by
    have h1 : b1 < 256 := h b1 (by simp)
    have hc1 := (b64Char_props (b1 / 4) (by omega)).1
    have hc2 := (b64Char_props (b1 % 4 * 16) (by omega)).1
    simp [base64Pad, stripEq, hc1, hc2, padRestore]
  | [b1, b2], h => by
    have h1 : b1 < 256 := h b1 (by simp)
    have h2 : b2 < 256 := h b2 (by simp)
    have hc1 := (b64Char_props (b1 / 4) (by omega)).1
    have hc2 := (b64Char_props (b1 % 4 * 16 + b2 / 16) (by omega)).1
    have hc3 := (b64Char_props (b2 % 16 * 4) (by omega)).1
    simp [base64Pad, stripEq, hc1, hc2, hc3, padRestore]
  | b1 :: b2 :: b3 :: rest3, h => by
    have h1 : b1 < 256 := h b1 (by simp)
    have h2 : b2 < 256 := h b2 (by simp)
    have h3 : b3 < 256 := h b3 (by simp)
    have ih := padRestore_strip_base64Pad rest3 (fun b hb => h b (by simp [hb]))
    have hc1 := (b64Char_props (b1 / 4) (by omega)).1
    have hc2 := (b64Char_props (b1 % 4 * 16 + b2 / 16) (by omega)).1
    have hc3 := (b64Char_props (b2 % 16 * 4 + b3 / 64) (by omega)).1
    have hc4 := (b64Char_props (b3 % 64) (by omega)).1
    have hstrip : stripEq (base64Pad (b1 :: b2 :: b3 :: rest3))
        = b64Char (b1 / 4) :: b64Char (b1 % 4 * 16 + b2 / 16)
          :: b64Char (b2 % 16 * 4 + b3 / 64) :: b64Char (b3 % 64)
          :: stripEq (base64Pad rest3) := by
      simp [base64Pad, stripEq, hc1, hc2, hc3, hc4]
    rw [hstrip, padRestore_cons4, ih]
    rfl

/-- Group decoding inverts the padded base64 rendering. -/
theorem b64DecodeGroups_base64Pad : ∀ bs : Bytes, (∀ b ∈ bs, b < 256) →
    b64DecodeGroups (base64Pad bs) = some bs
  | [], _ => rfl
  | [b1], h => by
    have h1 : b1 < 256 := h b1 (by simp)
    have e1 := b64Index_b64Char (b1 / 4) (by omega)
    have e2 := b64Index_b64Char (b1 % 4 * 16) (by omega)
    simp [base64Pad, b64DecodeGroups, e1, e2]
    omega
  | [b1, b2], h => by
    have h1 : b1 < 256 := h b1 (by simp)
    have h2 : b2 < 256 := h b2 (by simp)
    have e1 := b64Index_b64Char (b1 / 4) (by omega)
    have e2 := b64Index_b64Char (b1 % 4 * 16 + b2 / 16) (by omega)
    have e3 := b64Index_b64Char (b2 % 16 * 4) (by omega)
    have hc3 := (b64Char_props (b2 % 16 * 4) (by omega)).1
    simp [base64Pad, b64DecodeGroups, e1, e2, e3, hc3]
    omega
  | b1 :: b2 :: b3 :: rest3, h => by
    have h1 : b1 < 256 := h b1 (by simp)
    have h2 : b2 < 256 := h b2 (by simp)
    have h3 : b3 < 256 := h b3 (by simp)
    have ih := b64DecodeGroups_base64Pad rest3 (fun b hb => h b (by simp [hb]))
    have e1 := b64Index_b64Char (b1 / 4) (by omega)
    have e2 := b64Index_b64Char (b1 % 4 * 16 + b2 / 16) (by omega)
    have e3 := b64Index_b64Char (b2 % 16 * 4 + b3 / 64) (by omega)
    have e4 := b64Index_b64Char (b3 % 64) (by omega)
    have hc3 := (b64Char_props (b2 % 16 * 4 + b3 / 64) (by omega)).1
    have hc4 := (b64Char_props (b3 % 64) (by omega)).1
    simp [base64Pad, b64DecodeGroups, e1, e2, e3, e4, hc3, hc4, ih]
    omega

/-- Lists of characters fixed by a map are unchanged by it. -/
theorem map_fix {f : Char → Char} : ∀ l : List Char, (∀ c ∈ l, f c = c) → l.map f = l
  | [], _ => rfl
  | c :: t, h => by
    rw [List.map_cons, h c (by simp), map_fix t (fun x hx => h x (by simp [hx]))]

/-- Base64url decoding inverts the mock encoder's padding-stripped
standard base64 rendering. -/
theorem base64UrlDecode_strip_base64Pad (bs : Bytes) (h : ∀ b ∈ bs, b < 256) :
    base64UrlDecode (stripEq (base64Pad bs)) = some bs := by
  have hmap : (stripEq (base64Pad bs)).map dashReplace = stripEq (base64Pad bs) := by
    apply map_fix
    intro c hc
    obtain ⟨i, hi, rfl⟩ := strip_base64Pad_chars bs h c hc
    exact (b64Char_props i hi).2.2
  rw [base64UrlDecode, hmap, padRestore_strip_base64Pad bs h]
  exact b64DecodeGroups_base64Pad bs h

/-- Stripped base64 renderings contain no dot, so they survive the
token's segment split intact. -/
theorem strip_base64Pad_no_dot (bs : Bytes) (h : ∀ b ∈ bs, b < 256) :
    ∀ c ∈ stripEq (base64Pad bs), c ≠ '.' := by
  intro c hc
  obtain ⟨i, hi, rfl⟩ := strip_base64Pad_chars bs h c hc
  exact (b64Char_props i hi).2.1

/-- Escapes of genuine bytes are genuine bytes. -/
theorem escapeByte_lt (b : Nat) (hb : b < 256) : ∀ x ∈ escapeByte b, x < 256 := by
  intro x hx
  rw [escapeByte] at hx
  split at hx
  · simp at hx; omega
  · split at hx
    · simp at hx; omega
    · split at hx
      · simp at hx; omega
      · split at hx
        · simp at hx; omega
        · split at hx
          · simp at hx; omega
          · split at hx
            · simp at hx; omega
            · split at hx
              · simp at hx; omega
              · split at hx
                · simp only [List.mem_cons, List.not_mem_nil, or_false] at hx
                  have hh : hexDigitByte (b / 16) < 256 := by
                    rw [hexDigitByte]; split <;> omega
                  have hh2 : hexDigitByte (b % 16) < 256 := by
                    rw [hexDigitByte]; split <;> omega
                  rcases hx with rfl | rfl | rfl | rfl | rfl | rfl <;> omega
                · simp at hx; omega

/-- Escaped string bodies of genuine bytes are genuine bytes. -/
theorem escapeBytes_lt (s : Bytes) (hs : ∀ b ∈ s, b < 256) : ∀ x ∈ escapeBytes s, x < 256 := by
  intro x hx
  rw [escapeBytes, List.mem_flatMap] at hx
  obtain ⟨b, hb, hxb⟩ := hx
  exact escapeByte_lt b (hs b hb) x hxb

/-- Rendered integers are genuine bytes (sign and decimal digits). -/
theorem intBytes_lt (n : Int) : ∀ x ∈ intBytes n, x < 256 := by
  intro x hx
  rw [intBytes] at hx
  split at hx
  · simp only [List.mem_cons] at hx
    rcases hx with rfl | hmem
    · omega
    · have := natDigitsAux_digits _ _ x hmem
      simp only [isDigitByte, decide_eq_true_eq] at this
      omega
  · have := natDigitsAux_digits _ _ x hx
    simp only [isDigitByte, decide_eq_true_eq] at this
    omega

mutual

/-- Serializations of wellformed values consist of genuine bytes. -/
theorem serializeJson_lt : ∀ j : Json, Json.wfB j = true → ∀ x ∈ serializeJson j, x < 256
  | .null => by intro _ x hx; simp [serializeJson] at hx; omega
  | .bool b => by
    intro _ x hx
    cases b <;> simp [serializeJson] at hx <;> omega
  | .num n => by
    intro _ x hx
    exact intBytes_lt n x hx
  | .str s => by
    intro hwf x hx
    simp only [Json.wfB, List.all_eq_true, decide_eq_true_eq] at hwf
    have hx2 : x = 34 ∨ x ∈ escapeBytes s := by
      simp only [serializeJson, serializeString, List.mem_cons, List.mem_append,
        List.mem_singleton] at hx
      tauto
    rcases hx2 with rfl | hmem
    · omega
    · exact escapeBytes_lt s hwf x hmem
  | .arr a => by
    intro hwf x hx
    simp only [Json.wfB] at hwf
    have hx2 : x = 91 ∨ x = 93 ∨ x ∈ serializeElems a := by
      simp only [serializeJson, List.mem_cons, List.mem_append, List.mem_singleton] at hx
      tauto
    rcases hx2 with rfl | rfl | hmem
    · omega
    · omega
    · exact serializeElems_lt a hwf x hmem
  | .obj o => by
    intro hwf x hx
    simp only [Json.wfB] at hwf
    have hx2 : x = 123 ∨ x = 125 ∨ x ∈ serializeMembers o := by
      simp only [serializeJson, List.mem_cons, List.mem_append, List.mem_singleton] at hx
      tauto
    rcases hx2 with rfl | rfl | hmem
    · omega
    · omega
    · exact serializeMembers_lt o hwf x hmem

/-- Serializations of wellformed element lists are genuine bytes. -/
theorem serializeElems_lt : ∀ l : JsonList, Json.wfLB l = true → ∀ x ∈ serializeElems l, x < 256
  | .nil => by intro _ x hx; simp [serializeElems] at hx
  | .cons h .nil => by
    intro hwf x hx
    simp only [Json.wfLB, Bool.and_eq_true] at hwf
    exact serializeJson_lt h hwf.1 x hx
  | .cons h (.cons h2 t) => by
    intro hwf x hx
    simp only [Json.wfLB, Bool.and_eq_true] at hwf
    rw [show serializeElems (.cons h (.cons h2 t))
        = serializeJson h ++ 44 :: serializeElems (.cons h2 t) from rfl] at hx
    simp only [List.mem_append, List.mem_cons] at hx
    rcases hx with hmem | rfl | hmem
    · exact serializeJson_lt h hwf.1 x hmem
    · omega
    · exact serializeElems_lt (.cons h2 t) (by simp [Json.wfLB, hwf.2.1, hwf.2.2]) x hmem

/-- Serializations of wellformed member lists are genuine bytes. -/
theorem serializeMembers_lt : ∀ o : JsonObj, Json.wfOB o = true → ∀ x ∈ serializeMembers o, x < 256
  | .nil => by intro _ x hx; simp [serializeMembers] at hx
  | .cons k v .nil => by
    intro hwf x hx
    simp only [Json.wfOB, Bool.and_eq_true, List.all_eq_true, decide_eq_true_eq] at hwf
    rw [show serializeMembers (.cons k v .nil)
        = serializeString k ++ 58 :: serializeJson v from rfl] at hx
    have hx2 : x = 34 ∨ x = 58 ∨ x ∈ escapeBytes k ∨ x ∈ serializeJson v := by
      simp only [serializeString, List.mem_append, List.mem_cons, List.mem_singleton] at hx
      tauto
    rcases hx2 with rfl | rfl | hmem | hmem
    · omega
    · omega
    · exact escapeBytes_lt k hwf.1.1 x hmem
    · exact serializeJson_lt v hwf.1.2 x hmem
  | .cons k v (.cons k2 v2 t) => by
    intro hwf x hx
    simp only [Json.wfOB, Bool.and_eq_true, List.all_eq_true, decide_eq_true_eq] at hwf
    rw [show serializeMembers (.cons k v (.cons k2 v2 t))
        = serializeString k ++ 58 :: serializeJson v ++ 44 :: serializeMembers (.cons k2 v2 t)
      from rfl] at hx
    have hx2 : x = 34 ∨ x = 58 ∨ x = 44 ∨ x ∈ escapeBytes k ∨ x ∈ serializeJson v
        ∨ x ∈ serializeMembers (.cons k2 v2 t) := by
      simp only [serializeString, List.mem_append, List.mem_cons, List.mem_singleton] at hx
      tauto
    rcases hx2 with rfl | rfl | rfl | hmem | hmem | hmem
    · omega
    · omega
    · omega
    · exact escapeBytes_lt k hwf.1.1 x hmem
    · exact serializeJson_lt v hwf.1.2 x hmem
    · exact serializeMembers_lt (.cons k2 v2 t)
        (by
          simp only [Json.wfOB, Bool.and_eq_true, List.all_eq_true, decide_eq_true_eq]
          exact ⟨⟨hwf.2.1.1, hwf.2.1.2⟩, hwf.2.2⟩) x hmem

end

/-- Dot-free inputs split into the single segment they form. -/
theorem splitOnDot_noDot : ∀ s : List Char, (∀ c ∈ s, c ≠ '.') → splitOnDot s = [s] := by
  intro s
  induction s with
  | nil => intro _; rfl
  | cons c rest ih =>
    intro h
    have hc : ¬ c = '.' := h c (by simp)
    rw [splitOnDot, if_neg hc, ih (fun x hx => h x (by simp [hx]))]

/-- Splitting a dot-free segment followed by a dot puts that segment
first. -/
theorem splitOnDot_append : ∀ (a : List Char), (∀ c ∈ a, c ≠ '.') → ∀ r : List Char,
    splitOnDot (a ++ '.' :: r) = a :: splitOnDot r := by
  intro a
  induction a with
  | nil =>
    intro _ r
    simp [splitOnDot]
  | cons c rest ih =>
    intro h r
    have hc : ¬ c = '.' := h c (by simp)
    rw [List.cons_append, splitOnDot, if_neg hc, ih (fun x hx => h x (by simp [hx])) r]

/-- Segment split of a mock token: exactly the three encoded parts. -/
theorem splitOnDot_createMockJwt (p : JsonObj) (secret : Bytes)
    (hp : Json.wfB (.obj p) = true) (hs : (Json.str secret).wfB = true) :
    splitOnDot (createMockJwt p secret)
      = [mockB64Encode mockHeader, mockB64Encode (.obj p), mockB64Encode (.str secret)] := by
  have hhwf : Json.wfB mockHeader = true := by decide
  have hh : ∀ c ∈ mockB64Encode mockHeader, c ≠ '.' :=
    strip_base64Pad_no_dot (serializeJson mockHeader) (serializeJson_lt _ hhwf)
  have hpd : ∀ c ∈ mockB64Encode (.obj p), c ≠ '.' :=
    strip_base64Pad_no_dot (serializeJson (.obj p)) (serializeJson_lt _ hp)
  have hsd : ∀ c ∈ mockB64Encode (.str secret), c ≠ '.' :=
    strip_base64Pad_no_dot (serializeJson (.str secret)) (serializeJson_lt _ hs)
  rw [createMockJwt, splitOnDot_append _ hh, splitOnDot_append _ hpd, splitOnDot_noDot _ hsd]

/-- Round-trip of the mock encoder through the decode routine: the
payload comes back exactly and the header segment decodes to the fixed
mock header. -/
theorem jwtDecode_createMockJwt (p : JsonObj) (secret : Bytes)
    (hp : Json.wfB (.obj p) = true) (hs : (Json.str secret).wfB = true) :
    jwtDecode false (createMockJwt p secret) = .ok (.obj p)
      ∧ jwtDecode true (createMockJwt p secret) = .ok mockHeader := by
  have hsplit := splitOnDot_createMockJwt p secret hp hs
  have hhwf : Json.wfB mockHeader = true := by decide
  constructor
  · rw [show jwtDecode false (createMockJwt p secret)
        = jwtDecodePart 1 (createMockJwt p secret) from rfl]
    rw [jwtDecodePart, hsplit]
    have hb := base64UrlDecode_strip_base64Pad _ (serializeJson_lt _ hp)
    simp only [List.get?_cons_succ, List.get?_cons_zero, mockB64Encode, hb,
      jsonParse_serializeJson]
  · rw [show jwtDecode true (createMockJwt p secret)
        = jwtDecodePart 0 (createMockJwt p secret) from rfl]
    rw [jwtDecodePart, hsplit]
    have hb := base64UrlDecode_strip_base64Pad _ (serializeJson_lt _ hhwf)
    simp only [List.get?_cons_zero, mockB64Encode, hb, jsonParse_serializeJson]

/-- C1: the token getter is total over every stored state and token
string: absent key yields absent with storage untouched; a stored
value failing validation for any reason yields absent with the key
removed; a stored value passing validation is returned exactly, with
storage untouched. -/
theorem token_getter_never_throws (cv : Json → Except String Unit) (key : String)
    (now : Int) (st : Storage) :
    (getItem key st = none → getToken cv key now st = (none, st)) ∧
    (∀ tok, getItem key st = some tok →
      (∀ e, isValidTime cv tok now = .error e →
        getToken cv key now st = (none, removeItem key st)) ∧
      (isValidTime cv tok now = .ok () →
        getToken cv key now st = (some tok, st))) := by
  refine ⟨?_, ?_⟩
  · intro h
    rw [getToken, h]
  · intro tok h
    refine ⟨?_, ?_⟩
    · intro e he
      rw [getToken, h]
      simp only [he]
    · intro hok
      rw [getToken, h]
      simp only [hok]

/-- Witness for C1 at a concrete valid stored token. -/
theorem token_getter_never_throws_witness :
    getToken customValidationDefault "auth_token" 1000 [("auth_token", mockTok)]
      = (some mockTok, [("auth_token", mockTok)]) :=
  ((token_getter_never_throws customValidationDefault "auth_token" 1000
    [("auth_token", mockTok)]).2 mockTok rfl).2 rfl

/-- C2: the token setter runs the whole validation before storing:
any validation error propagates to the caller with the storage state
completely unchanged, and a passing value is stored under the key. -/
theorem token_setter_validates_before_store (cv : Json → Except String Unit)
    (key : String) (now : Int) (value : List Char) (st : Storage) :
    (∀ e, isValidTime cv value now = .error e →
      setToken cv key now value st = (.error e, st)) ∧
    (isValidTime cv value now = .ok () →
      setToken cv key now value st = (.ok (), setItem key value st)) := by
  refine ⟨?_, ?_⟩
  · intro e he
    rw [setToken, he]
  · intro hok
    rw [setToken, hok]

/-- Witness for C2 at a structurally invalid token: the decode error
propagates and nothing is stored. -/
theorem token_setter_validates_before_store_witness :
    setToken customValidationDefault "auth_token" 0 ['x'] []
      = (.error (.decode (.missingPart 2)), []) :=
  (token_setter_validates_before_store customValidationDefault "auth_token" 0 ['x'] []).1
    (.decode (.missingPart 2)) rfl

/-- C3: evaluation of the temporal check at the failing input.  A
claim set with the exp claim present and equal to zero is accepted at
a later current time (the falsy test on exp treats zero as absent and
returns early), although the claim, the method's documentation, and
the specification require the Expired failure whenever exp is present
and the current time has reached it; a present nonzero exp at the
same instant is rejected as required. -/
theorem expired_check_accepts_zero_exp :
    checkTime customValidationDefault (.obj (expObj 0)) 1700000000 = .ok ()
      ∧ checkTime customValidationDefault (.obj (expObj 5)) 1700000000
          = .error (.expired 5 1700000000) :=
  ⟨rfl, rfl⟩

/-- C4: evaluation of the temporal check at the failing input.  For a
claim set with no exp claim (and no nbf claim) the temporal stage
passes, yet validation succeeds without invoking the custom hook: with
a hook that rejects everything the check still returns success,
although the claim, the hook's documented contract, and the
specification say the hook runs whenever temporal checks pass,
including when exp is absent. -/
theorem custom_hook_skipped_when_exp_absent :
    checkTime rejectHook (.obj .nil) 1700000000 = .ok ()
      ∧ rejectHook (.obj .nil) = .error "rejected" :=
  ⟨rfl, rfl⟩

/-- C5 counterexample: with the nbf claim present and equal to zero
and a current time before it, the temporal check succeeds instead of
failing with NotYetValid, because the truthiness guard skips a zero
nbf. -/
theorem nbf_zero_skipped_counterexample :
    checkTime customValidationDefault
      (.obj (.cons (strBytes "nbf") (.num 0) .nil)) (-1) = .ok () :=
  rfl

/-- C5 amended: for every claim set whose nbf claim is present with a
nonzero value and every current time before it, the temporal check
fails with NotYetValid carrying nbf and the current time; the outcome
is the same for every custom hook and every exp claim, so neither the
expiration check nor the hook runs for such a token. -/
theorem notBefore_check_first (cv : Json → Except String Unit) (j : Json)
    (b now : Int) (hnbf : jsonField j (strBytes "nbf") = some (.num b))
    (hb : b ≠ 0) (hlt : now < b) :
    checkTime cv j now = .error (.notBefore b now) := by
  have hv : nbfViolation j now = some b := by
    rw [nbfViolation, hnbf]
    simp [hb, hlt]
  rw [checkTime, hv]

/-- Witness for the amended C5: an expired token with a rejecting
hook still fails with NotYetValid, showing the fixed ordering. -/
theorem notBefore_check_first_witness :
    checkTime rejectHook
      (.obj (.cons (strBytes "nbf") (.num 100) (.cons (strBytes "exp") (.num 1) .nil))) 5
      = .error (.notBefore 100 5) :=
  notBefore_check_first rejectHook _ 100 5 rfl (by decide) (by decide)

/-- C6: two consecutive reads of a validly stored, non-expired token
at a fixed current time return the same string and leave the storage
state exactly as it was. -/
theorem read_idempotent (cv : Json → Except String Unit) (key : String) (now : Int)
    (st : Storage) (tok : List Char) (h1 : getItem key st = some tok)
    (h2 : isValidTime cv tok now = .ok ()) :
    getToken cv key now st = (some tok, st) ∧
    getToken cv key now (getToken cv key now st).2 = (some tok, st) := by
  have hfst : getToken cv key now st = (some tok, st) := by
    rw [getToken, h1]
    simp only [h2]
  refine ⟨hfst, ?_⟩
  rw [hfst]
  exact hfst

/-- Witness for C6 at a concrete valid stored token. -/
theorem read_idempotent_witness :
    getToken customValidationDefault "auth_token" 1000 [("auth_token", mockTok)]
        = (some mockTok, [("auth_token", mockTok)]) ∧
    getToken customValidationDefault "auth_token" 1000
        (getToken customValidationDefault "auth_token" 1000 [("auth_token", mockTok)]).2
        = (some mockTok, [("auth_token", mockTok)]) :=
  read_idempotent customValidationDefault "auth_token" 1000 [("auth_token", mockTok)]
    mockTok rfl rfl

/-- C7: with a valid token, a manager constructed with the local
storage type writes to the persistent backend and leaves the session
backend unchanged; one constructed with the session type (or with the
type omitted, whose default is session) writes to the session backend
and leaves the persistent backend unchanged. -/
theorem storage_type_frame (cv : Json → Except String Unit) (key : String) (now : Int)
    (value : List Char) (b : BrowserState) (h : isValidTime cv value now = .ok ()) :
    setTokenState cv (mkManager key .localStore) now value b
        = (.ok (), { b with localStore := setItem key value b.localStore }) ∧
    (setTokenState cv (mkManager key .localStore) now value b).2.sessionStore
        = b.sessionStore ∧
    setTokenState cv (mkManager key .session) now value b
        = (.ok (), { b with sessionStore := setItem key value b.sessionStore }) ∧
    (setTokenState cv (mkManager key .session) now value b).2.localStore = b.localStore ∧
    mkManagerDefault key = mkManager key .session := by
  have hl : setTokenState cv (mkManager key .localStore) now value b
      = (.ok (), { b with localStore := setItem key value b.localStore }) := by
    rw [setTokenState, h]
    rfl
  have hs : setTokenState cv (mkManager key .session) now value b
      = (.ok (), { b with sessionStore := setItem key value b.sessionStore }) := by
    rw [setTokenState, h]
    rfl
  refine ⟨hl, ?_, hs, ?_, rfl⟩
  · rw [hl]
  · rw [hs]

/-- Witness for C7 at a concrete valid token on empty backends. -/
theorem storage_type_frame_witness :
    setTokenState customValidationDefault (mkManager "auth_token" .localStore) 1000 mockTok
        { sessionStore := [], localStore := [] }
      = (.ok (), { sessionStore := [], localStore := [("auth_token", mockTok)] }) ∧
    setTokenState customValidationDefault (mkManagerDefault "auth_token") 1000 mockTok
        { sessionStore := [], localStore := [] }
      = (.ok (), { sessionStore := [("auth_token", mockTok)], localStore := [] }) := by
  have h := storage_type_frame customValidationDefault "auth_token" 1000 mockTok
    { sessionStore := [], localStore := [] } rfl
  exact ⟨h.1, h.2.2.1⟩

/-- C8: for every wellformed claim mapping and secret, decoding the
token produced by the mock encoder recovers the claim mapping exactly,
and the header segment independently decodes to the fixed mock header,
although the encoder strips padding characters. -/
theorem decode_encode_roundtrip (p : JsonObj) (secret : Bytes)
    (hp : Json.wfB (.obj p) = true) (hs : Json.wfB (.str secret) = true) :
    jwtDecode false (createMockJwt p secret) = .ok (.obj p) ∧
    jwtDecode true (createMockJwt p secret) = .ok mockHeader :=
  jwtDecode_createMockJwt p secret hp hs

/-- Witness for C8 at a concrete claim mapping and the default
secret. -/
theorem decode_encode_roundtrip_witness :
    jwtDecode false (createMockJwtDefault (expObj 2000000000))
        = .ok (.obj (expObj 2000000000)) ∧
    jwtDecode true (createMockJwtDefault (expObj 2000000000)) = .ok mockHeader :=
  decode_encode_roundtrip (expObj 2000000000) (strBytes "mock-secret") (by decide) (by decide)

/-- C9: every claim accessor is a read-only projection of the decoded
data: with a stored valid token decoding to a claim mapping, each
accessor returns exactly the corresponding field of that mapping (so
absent exactly when the claim is missing) and leaves storage
untouched; when the token read is absent, every accessor is absent. -/
theorem claim_accessors_project (cv : Json → Except String Unit) (key : String)
    (now : Int) (st : Storage) :
    (∀ tok j, getItem key st = some tok → isValidTime cv tok now = .ok () →
      jwtDecode false tok = .ok j →
      issuerOp cv key now st = (jsonField j (strBytes "iss"), st) ∧
      subjectOp cv key now st = (jsonField j (strBytes "sub"), st) ∧
      audienceOp cv key now st = (jsonField j (strBytes "aud"), st) ∧
      notBeforeOp cv key now st = (jsonField j (strBytes "nbf"), st) ∧
      issuedAtOp cv key now st = (jsonField j (strBytes "iat"), st) ∧
      jwtIdOp cv key now st = (jsonField j (strBytes "jti"), st) ∧
      expirationTimeOp cv key now st = (jsonField j (strBytes "exp"), st)) ∧
    ((getToken cv key now st).1 = none →
      issuerOp cv key now st = (none, (getToken cv key now st).2) ∧
      subjectOp cv key now st = (none, (getToken cv key now st).2) ∧
      audienceOp cv key now st = (none, (getToken cv key now st).2) ∧
      notBeforeOp cv key now st = (none, (getToken cv key now st).2) ∧
      issuedAtOp cv key now st = (none, (getToken cv key now st).2) ∧
      jwtIdOp cv key now st = (none, (getToken cv key now st).2) ∧
      expirationTimeOp cv key now st = (none, (getToken cv key now st).2)) := by
  constructor
  · intro tok j hst hvalid hdec
    have hget : getToken cv key now st = (some tok, st) := by
      rw [getToken, hst]
      simp only [hvalid]
    have hdata : dataOp cv key now st = (some j, st) := by
      rw [dataOp, hget]
      simp only [hdec]
      rfl
    refine ⟨?_, ?_, ?_, ?_, ?_, ?_, ?_⟩ <;>
      first
        | (rw [issuerOp, claimOp, hdata]; rfl)
        | (rw [subjectOp, claimOp, hdata]; rfl)
        | (rw [audienceOp, claimOp, hdata]; rfl)
        | (rw [notBeforeOp, claimOp, hdata]; rfl)
        | (rw [issuedAtOp, claimOp, hdata]; rfl)
        | (rw [jwtIdOp, claimOp, hdata]; rfl)
        | (rw [expirationTimeOp, claimOp, hdata]; rfl)
  · intro hnone
    rcases hg : getToken cv key now st with ⟨r, st2⟩
    rw [hg] at hnone
    simp only at hnone
    subst hnone
    have hdata : dataOp cv key now st = (none, st2) := by
      rw [dataOp, hg]
    refine ⟨?_, ?_, ?_, ?_, ?_, ?_, ?_⟩ <;>
      first
        | (rw [issuerOp, claimOp, hdata]; rfl)
        | (rw [subjectOp, claimOp, hdata]; rfl)
        | (rw [audienceOp, claimOp, hdata]; rfl)
        | (rw [notBeforeOp, claimOp, hdata]; rfl)
        | (rw [issuedAtOp, claimOp, hdata]; rfl)
        | (rw [jwtIdOp, claimOp, hdata]; rfl)
        | (rw [expirationTimeOp, claimOp, hdata]; rfl)

/-- Witness for C9 at a concrete valid stored token: the exp accessor
yields the stored claim and the issuer accessor is absent. -/
theorem claim_accessors_project_witness :
    expirationTimeOp customValidationDefault "auth_token" 1000 [("auth_token", mockTok)]
        = (some (.num 2000000000), [("auth_token", mockTok)]) ∧
    issuerOp customValidationDefault "auth_token" 1000 [("auth_token", mockTok)]
        = (none, [("auth_token", mockTok)]) := by
  have h := ((claim_accessors_project customValidationDefault "auth_token" 1000
    [("auth_token", mockTok)]).1 mockTok (.obj (expObj 2000000000)) rfl rfl
    ((jwtDecode_createMockJwt (expObj 2000000000) (strBytes "mock-secret") rfl rfl).1))
  exact ⟨h.2.2.2.2.2.2, h.1⟩

/-- C10: the earlier and the current manager variant differ at the
expiry boundary.  For a token whose exp claim equals the (nonzero)
current time, the earlier variant's strict check judges it still valid
and its setter stores it returning normally, while the current
variant's inclusive check raises TokenExpired and stores nothing; on
an empty storage the resulting states differ. -/
theorem old_new_setter_boundary_divergence (cv : Json → Except String Unit)
    (key : String) (st : Storage) (e : Int) (he : e ≠ 0) :
    oldSetToken key e (createMockJwtDefault (expObj e)) st
        = .ok (setItem key (createMockJwtDefault (expObj e)) st) ∧
    setToken cv key e (createMockJwtDefault (expObj e)) st
        = (.error (.expired e e), st) ∧
    setItem key (createMockJwtDefault (expObj e)) [] ≠ ([] : Storage) := by
  have hdec : jwtDecode false (createMockJwtDefault (expObj e)) = .ok (.obj (expObj e)) :=
    (jwtDecode_createMockJwt (expObj e) (strBytes "mock-secret") rfl rfl).1
  have hfield : jsonField (.obj (expObj e)) (strBytes "exp") = some (.num e) := rfl
  refine ⟨?_, ?_, ?_⟩
  · have hexp : hasExpired (createMockJwtDefault (expObj e)) e = .ok false := by
      rw [hasExpired, hdec]
      simp only [hfield]
      have : decide (e ≠ 0 ∧ e < e) = false := by simp
      rw [this]
    rw [oldSetToken, hexp]
  · have hnbf : nbfViolation (.obj (expObj e)) e = none := rfl
    have htr : jsTruthy (.num e) = true := by
      simp [jsTruthy, he]
    have hct : checkTime cv (.obj (expObj e)) e = .error (.expired e e) := by
      rw [checkTime, hnbf]
      simp only [hfield, htr, if_true]
      rw [if_pos (le_refl e)]
    have hvt : isValidTime cv (createMockJwtDefault (expObj e)) e
        = .error (.expired e e) := by
      rw [isValidTime, hdec]
      exact hct
    rw [setToken, hvt]
  · simp [setItem]

/-- Witness for C10 at the concrete boundary instant 100. -/
theorem old_new_setter_boundary_divergence_witness :
    oldSetToken "auth_token" 100 (createMockJwtDefault (expObj 100)) []
        = .ok (setItem "auth_token" (createMockJwtDefault (expObj 100)) []) ∧
    setToken customValidationDefault "auth_token" 100
        (createMockJwtDefault (expObj 100)) []
        = (.error (.expired 100 100), []) := by
  have h := old_new_setter_boundary_divergence customValidationDefault "auth_token" []
    100 (by decide)
  exact ⟨h.1, h.2.1⟩

end JwtSpec
